import Mathlib

/-!
Shallow embedding of the `treeamps` tensor-structure generator
(`treeamps-core/src/{types,dot_product,tensor_structure,generator}.rs`).

Machine integers (`u8`, `u32`) are modelled by `Nat`: all quantities involved
are small counters bounded by the leg count and the degree, and no overflow
occurs in the modelled ranges.  The mutate/undo backtracking discipline of the
Rust search is represented functionally: a recursive call receives the state
extended with the chosen factor, and the caller simply continues with its own
(unchanged) state, which is exactly what the paired `add`/`remove` updates
restore.  The `BTreeSet<TensorStructure>` result container is modelled as a
strictly sorted list with ordered insertion keyed by the `Ord` instance
(which compares only the factor sequences).
-/

/-- `types.rs`: kind of scalar factor (`ScalarKind`), derives `Ord` with
`PP < PE < EE`. -/
inductive ScalarKind where
  | PP
  | PE
  | EE
deriving DecidableEq, Repr

/-- Numeric rank realising the derived `Ord` on `ScalarKind`. -/
def ScalarKind.toNat : ScalarKind → Nat
  | .PP => 0
  | .PE => 1
  | .EE => 2

/-- `types.rs`: transversality / p·e rules. -/
inductive Transversality where
  | None
  | ForbidPiDotEi
deriving DecidableEq, Repr

/-- `types.rs`: how polarizations are allowed to appear per leg. -/
inductive PolarizationPattern where
  | Unrestricted
  | OnePerLeg
deriving DecidableEq, Repr

/-- `dot_product.rs`: a single scalar factor (dot product); `LegIndex(u8)` is
modelled as `Nat`. -/
structure ScalarFactor where
  kind : ScalarKind
  a : Nat
  b : Nat
deriving DecidableEq, Repr

def ScalarFactor.pp (i j : Nat) : ScalarFactor := ⟨.PP, i, j⟩

def ScalarFactor.pe (i j : Nat) : ScalarFactor := ⟨.PE, i, j⟩

def ScalarFactor.ee (i j : Nat) : ScalarFactor := ⟨.EE, i, j⟩

/-- Three-way comparison on `Nat` (the `Ord` used by the Rust derive). -/
def cmpN (a b : Nat) : Ordering :=
  if a < b then .lt else if b < a then .gt else .eq

/-- `dot_product.rs`, `impl Ord for ScalarFactor`: kind first, then `a`,
then `b`. -/
def ScalarFactor.cmp (f g : ScalarFactor) : Ordering :=
  (cmpN f.kind.toNat g.kind.toNat).then ((cmpN f.a g.a).then (cmpN f.b g.b))

/-- `f ≤ g` as a Bool, from the comparator (used by the stable sort). -/
def factorLeB (f g : ScalarFactor) : Bool :=
  match f.cmp g with
  | .gt => false
  | _ => true

/-- Ordered insertion used to model `Vec::sort` on factor lists. -/
def insertFactor (f : ScalarFactor) : List ScalarFactor → List ScalarFactor
  | [] => [f]
  | g :: gs => if factorLeB f g then f :: g :: gs else g :: insertFactor f gs

/-- Sorting a factor list (models `Vec::sort`; the comparator is total and
equality-reflecting, so any correct sort yields the same result). -/
def sortFactors : List ScalarFactor → List ScalarFactor
  | [] => []
  | f :: fs => insertFactor f (sortFactors fs)

/-- `tensor_structure.rs`: an ordered sequence of factors plus the cached
count of EE-kind factors. -/
structure TensorStructure where
  factors : List ScalarFactor
  ee_contractions : Nat
deriving DecidableEq, Repr

def TensorStructure.new : TensorStructure := ⟨[], 0⟩

/-- `tensor_structure.rs`: `canonicalize` sorts the factor sequence. -/
def TensorStructure.canonicalize (t : TensorStructure) : TensorStructure :=
  { t with factors := sortFactors t.factors }

/-- Lexicographic comparison of factor sequences (`Vec<ScalarFactor>::cmp`). -/
def listCmp : List ScalarFactor → List ScalarFactor → Ordering
  | [], [] => .eq
  | [], _ :: _ => .lt
  | _ :: _, [] => .gt
  | f :: fs, g :: gs => (f.cmp g).then (listCmp fs gs)

/-- `tensor_structure.rs`, `impl Ord for TensorStructure`: compare the factor
sequences only (the cached EE count does not participate). -/
def TensorStructure.cmp (t u : TensorStructure) : Ordering :=
  listCmp t.factors u.factors

/-- Ordered insertion into the strictly sorted list modelling
`BTreeSet<TensorStructure>`; an element comparing equal to a present one is
dropped (`BTreeSet::insert` keeps the existing element). -/
def insertTS (t : TensorStructure) : List TensorStructure → List TensorStructure
  | [] => [t]
  | u :: us =>
    match t.cmp u with
    | .lt => t :: u :: us
    | .eq => u :: us
    | .gt => u :: insertTS t us

/-- `generator.rs`: high-level configuration (`GenConfig`); `n_legs : u8` is
modelled as `Nat`. -/
structure GenConfig where
  n_legs : Nat
  transversality : Transversality
  pol_pattern : PolarizationPattern

/-- The Rust iteration `for r in 1..=n`. -/
def legRange (n : Nat) : List Nat := List.range' 1 n

/-- `generator.rs`, `generate_valid_factors`: builds the three sorted lists of
permissible factors (PP, PE, EE).  `continue` inside the Rust loops becomes a
`filterMap` returning `none`. -/
def generate_valid_factors (cfg : GenConfig) :
    List ScalarFactor × List ScalarFactor × List ScalarFactor :=
  let n := cfg.n_legs
  -- PP factors: forbid any factor involving p_n
  let pp := (legRange n).flatMap fun i =>
    (List.range' (i + 1) (n - i)).filterMap fun j =>
      if i = n ∨ j = n then none else some (ScalarFactor.pp i j)
  -- PE factors: forbid p_n as momentum, and forbid p_1·e_n
  let pe := (legRange n).flatMap fun i =>
    if i = n then []
    else (legRange n).filterMap fun j =>
      if cfg.transversality = Transversality.ForbidPiDotEi ∧ i = j then none
      else if j = n ∧ i = 1 then none
      else some (ScalarFactor.pe i j)
  -- EE factors
  let ee := (legRange n).flatMap fun i =>
    (List.range' (i + 1) (n - i)).map fun j => ScalarFactor.ee i j
  (sortFactors pp, sortFactors pe, sortFactors ee)

/-- `generator.rs`: the recursion state `DfsState`.  The per-leg usage buffer
`pol_count : Vec<u32>` (length `n_legs + 1`, index 0 unused) is modelled as a
total function `Nat → Nat`. -/
structure DfsState where
  target_deg : Nat
  ee_needed : Nat
  nlegs : Nat
  enforce_one_pol : Bool
  catalog : List ScalarFactor
  cur : TensorStructure
  pe_so_far : Nat
  pol_count : Nat → Nat

/-- Increment one slot of the usage buffer. -/
def bumpPol (pc : Nat → Nat) (r : Nat) : Nat → Nat :=
  fun q => if q = r then pc r + 1 else pc q

/-- Decrement one slot of the usage buffer. -/
def dropPol (pc : Nat → Nat) (r : Nat) : Nat → Nat :=
  fun q => if q = r then pc r - 1 else pc q

/-- `generator.rs`, `add_polarizations`. -/
def add_polarizations (pc : Nat → Nat) (f : ScalarFactor) : Nat → Nat :=
  match f.kind with
  | .PE => bumpPol pc f.b
  | .EE => bumpPol (bumpPol pc f.a) f.b
  | .PP => pc

/-- `generator.rs`, `remove_polarizations` (the undo of `add_polarizations`;
in this functional embedding backtracking is realised by the caller keeping
its own state, and `remove_polarizations_add_polarizations` below checks that
the undo is the exact inverse). -/
def remove_polarizations (pc : Nat → Nat) (f : ScalarFactor) : Nat → Nat :=
  match f.kind with
  | .PE => dropPol pc f.b
  | .EE => dropPol (dropPol pc f.a) f.b
  | .PP => pc

/-- The state updates performed in the body of the `for i in idx_start..` loop
of `dfs_emit` before the recursive call: push the factor, bump the cached EE
count, and (when one-pol-per-leg is enforced) bump the PE count and the usage
buffer. -/
def pushFactor (s : DfsState) (f : ScalarFactor) : DfsState :=
  { s with
    cur := { factors := s.cur.factors ++ [f],
             ee_contractions :=
               s.cur.ee_contractions + (if f.kind = ScalarKind.EE then 1 else 0) },
    pe_so_far :=
      s.pe_so_far +
        (if s.enforce_one_pol ∧ f.kind = ScalarKind.PE then 1 else 0),
    pol_count :=
      if s.enforce_one_pol then add_polarizations s.pol_count f else s.pol_count }

/-- `generator.rs`, `dfs_emit`.  The recursion is fuelled: the search never
descends once `target_deg` factors are chosen, so `target_deg + 1` fuel (as
supplied by `generate_tensor_structures`) is never exhausted.  Note that the
recursive call reuses the loop index `i` as the next start index, exactly as
in the source (`dfs_emit(s, i, out)`). -/
def dfs_emit (fuel : Nat) (s : DfsState) (idx_start : Nat)
    (out : List TensorStructure) : List TensorStructure :=
  match fuel with
  | 0 => out
  | fuel + 1 =>
    let deg_so_far := s.cur.factors.length
    let ee_so_far := s.cur.ee_contractions
    if deg_so_far > s.target_deg ∨ ee_so_far > s.ee_needed then out
    else if s.enforce_one_pol &&
        ((legRange s.nlegs).any (fun r => decide (s.pol_count r > 1)) ||
          decide ((s.target_deg - deg_so_far) * 2 <
            ((legRange s.nlegs).filter fun r => s.pol_count r == 0).length) ||
          decide (2 * ee_so_far + s.pe_so_far > s.nlegs)) then out
    else if deg_so_far = s.target_deg then
      if ee_so_far = s.ee_needed then
        if !s.enforce_one_pol then insertTS s.cur.canonicalize out
        else if 2 * ee_so_far + s.pe_so_far = s.nlegs ∧
            (legRange s.nlegs).all (fun r => s.pol_count r == 1) then
          insertTS s.cur.canonicalize out
        else out
      else out
    else
      (List.range' idx_start (s.catalog.length - idx_start)).foldl
        (fun acc i =>
          dfs_emit fuel (pushFactor s (s.catalog.getD i (ScalarFactor.pp 0 0))) i acc)
        out

/-- `generator.rs`, `generate_tensor_structures`. -/
def generate_tensor_structures (cfg : GenConfig)
    (target_degree ee_contractions : Nat) : List TensorStructure :=
  if target_degree = 0 then []
  else if ee_contractions > target_degree then []
  else
    let pp := (generate_valid_factors cfg).1
    let pe := (generate_valid_factors cfg).2.1
    let ee := (generate_valid_factors cfg).2.2
    let catalog := pp ++ pe ++ ee
    let s : DfsState :=
      { target_deg := target_degree
        ee_needed := ee_contractions
        nlegs := cfg.n_legs
        enforce_one_pol := cfg.pol_pattern = PolarizationPattern.OnePerLeg
        catalog := catalog
        cur := TensorStructure.new
        pe_so_far := 0
        pol_count := fun _ => 0 }
    dfs_emit (target_degree + 1) s 0 []

/-! ### Concrete-scenario and degenerate-input claims -/

set_option maxRecDepth 10000

/-- C1: for the config with `n_legs = 4`, transversality `ForbidPiDotEi` and
polarization pattern `OnePerLeg`, `generate_tensor_structures cfg 3 1` returns
exactly 24 distinct tensor structures and `generate_tensor_structures cfg 2 2`
returns exactly 3 distinct tensor structures. -/
theorem c1_concrete_scenarios :
    ((generate_tensor_structures ⟨4, .ForbidPiDotEi, .OnePerLeg⟩ 3 1).length = 24 ∧
      (generate_tensor_structures ⟨4, .ForbidPiDotEi, .OnePerLeg⟩ 3 1).Nodup) ∧
    ((generate_tensor_structures ⟨4, .ForbidPiDotEi, .OnePerLeg⟩ 2 2).length = 3 ∧
      (generate_tensor_structures ⟨4, .ForbidPiDotEi, .OnePerLeg⟩ 2 2).Nodup) := by
  decide

/-- C2 (counterexample): it is not the case that every returned tensor
structure is free of repeated catalog factors: with `n_legs = 2`,
transversality `None`, pattern `Unrestricted`, degree 2 and 0 EE contractions,
the returned structure `(p1·e1)·(p1·e1)` repeats the catalog factor `p1·e1`,
because the recursive call of the search reuses start index `i`, not `i + 1`. -/
theorem c2_counterexample :
    ¬ (∀ t ∈ generate_tensor_structures ⟨2, .None, .Unrestricted⟩ 2 0,
        t.factors.Nodup) := by
  decide

/-- C2 (amended): after appending the catalog factor at index `i`, the
recursion continues with the same start index `i`, so the same catalog factor
can be chosen repeatedly; concretely, with `n_legs = 2`, transversality
`None`, pattern `Unrestricted`, degree 2 and 0 EE contractions the unique
returned structure is `(p1·e1)·(p1·e1)`, containing the catalog factor
`p1·e1` twice. -/
theorem c2_amended_repeated_factor :
    generate_tensor_structures ⟨2, .None, .Unrestricted⟩ 2 0 =
      [⟨[ScalarFactor.pe 1 1, ScalarFactor.pe 1 1], 0⟩] := by
  decide

/-- C8: for every config, `generate_tensor_structures` returns the empty
sequence whenever `target_degree = 0`, and likewise whenever
`ee_contractions > target_degree`. -/
theorem c8_degenerate_inputs (cfg : GenConfig) (D E : Nat) :
    (D = 0 → generate_tensor_structures cfg D E = []) ∧
    (E > D → generate_tensor_structures cfg D E = []) := by
  constructor
  · intro h
    simp [generate_tensor_structures, h]
  · intro h
    by_cases hD : D = 0
    · simp [generate_tensor_structures, hD]
    · simp [generate_tensor_structures, hD, h]

/-- C8 witness. -/
theorem c8_degenerate_inputs_witness :
    generate_tensor_structures ⟨4, .ForbidPiDotEi, .OnePerLeg⟩ 0 0 = [] ∧
    generate_tensor_structures ⟨4, .ForbidPiDotEi, .OnePerLeg⟩ 1 2 = [] :=
  ⟨(c8_degenerate_inputs ⟨4, .ForbidPiDotEi, .OnePerLeg⟩ 0 0).1 rfl,
    (c8_degenerate_inputs ⟨4, .ForbidPiDotEi, .OnePerLeg⟩ 1 2).2 (by decide)⟩

/-- C10: for every `target_degree ≥ 1` and `ee_contractions ≤ target_degree`,
a config with `n_legs = 0` makes `generate_tensor_structures` return the
empty sequence (the catalog is empty, so no leaf of the required degree is
reachable). -/
theorem c10_zero_legs (tv : Transversality) (pp : PolarizationPattern)
    (D E : Nat) (hD : 1 ≤ D) (hE : E ≤ D) :
    generate_tensor_structures ⟨0, tv, pp⟩ D E = [] := by
  obtain ⟨d, rfl⟩ : ∃ d, D = d + 1 := ⟨D - 1, by omega⟩
  have hcat : generate_valid_factors ⟨0, tv, pp⟩ = ([], [], []) := by
    simp [generate_valid_factors, legRange, sortFactors]
  simp [generate_tensor_structures, hcat, Nat.not_lt.mpr hE, dfs_emit, legRange,
    TensorStructure.new]

/-- C10 witness. -/
theorem c10_zero_legs_witness :
    generate_tensor_structures ⟨0, .None, .Unrestricted⟩ 1 0 = [] :=
  c10_zero_legs .None .Unrestricted 1 0 (by decide) (by decide)

/-! ### Comparator lemmas -/

theorem cmpN_eq_lt {a b : Nat} : cmpN a b = .lt ↔ a < b := by
  unfold cmpN; split_ifs with h1 h2 <;> simp_all

theorem cmpN_eq_gt {a b : Nat} : cmpN a b = .gt ↔ b < a := by
  unfold cmpN; split_ifs with h1 h2 <;> simp_all <;> omega

theorem cmpN_eq_eq {a b : Nat} : cmpN a b = .eq ↔ a = b := by
  unfold cmpN; split_ifs with h1 h2 <;> simp_all <;> omega

theorem then_eq_lt {o p : Ordering} :
    o.then p = .lt ↔ o = .lt ∨ (o = .eq ∧ p = .lt) := by
  cases o <;> simp [Ordering.then]

theorem then_eq_eq {o p : Ordering} :
    o.then p = .eq ↔ o = .eq ∧ p = .eq := by
  cases o <;> simp [Ordering.then]

theorem then_eq_gt {o p : Ordering} :
    o.then p = .gt ↔ o = .gt ∨ (o = .eq ∧ p = .gt) := by
  cases o <;> simp [Ordering.then]

theorem ScalarKind.toNat_inj {k k' : ScalarKind} :
    k.toNat = k'.toNat ↔ k = k' := by
  cases k <;> cases k' <;> simp [ScalarKind.toNat]

theorem fcmp_eq_lt {f g : ScalarFactor} :
    f.cmp g = .lt ↔
      f.kind.toNat < g.kind.toNat ∨
        (f.kind.toNat = g.kind.toNat ∧
          (f.a < g.a ∨ (f.a = g.a ∧ f.b < g.b))) := by
  simp [ScalarFactor.cmp, then_eq_lt, cmpN_eq_lt, cmpN_eq_eq]

theorem fcmp_eq_eq {f g : ScalarFactor} : f.cmp g = .eq ↔ f = g := by
  cases f; cases g
  simp [ScalarFactor.cmp, then_eq_eq, cmpN_eq_eq, ScalarKind.toNat_inj,
    and_assoc]

theorem fcmp_eq_gt {f g : ScalarFactor} : f.cmp g = .gt ↔ g.cmp f = .lt := by
  simp only [ScalarFactor.cmp, then_eq_gt, then_eq_lt, cmpN_eq_lt, cmpN_eq_gt,
    cmpN_eq_eq]
  omega

theorem fcmp_lt_trans {f g h : ScalarFactor} :
    f.cmp g = .lt → g.cmp h = .lt → f.cmp h = .lt := by
  simp only [fcmp_eq_lt]; omega

theorem fcmp_self {f : ScalarFactor} : f.cmp f = .eq := fcmp_eq_eq.mpr rfl

theorem factorLeB_iff {f g : ScalarFactor} :
    factorLeB f g = true ↔ f.cmp g ≠ .gt := by
  unfold factorLeB; cases h : f.cmp g <;> simp_all

theorem factorLeB_total (f g : ScalarFactor) :
    factorLeB f g = true ∨ factorLeB g f = true := by
  rw [factorLeB_iff, factorLeB_iff]
  cases h : f.cmp g
  · simp
  · simp
  · right; rw [fcmp_eq_gt] at h; simp [h]

theorem factorLeB_iff_not_lt {f g : ScalarFactor} :
    factorLeB f g = true ↔ ¬ g.cmp f = .lt := by
  rw [factorLeB_iff, not_iff_not]
  exact fcmp_eq_gt

theorem factorLeB_trans {f g h : ScalarFactor} :
    factorLeB f g = true → factorLeB g h = true → factorLeB f h = true := by
  rw [factorLeB_iff_not_lt, factorLeB_iff_not_lt, factorLeB_iff_not_lt]
  intro h1 h2 h3
  cases hfg : f.cmp g with
  | lt => exact h2 (fcmp_lt_trans h3 hfg)
  | eq => rw [fcmp_eq_eq] at hfg; subst hfg; exact h2 h3
  | gt => exact h1 (fcmp_eq_gt.mp hfg)

theorem factorLeB_antisymm {f g : ScalarFactor} :
    factorLeB f g = true → factorLeB g f = true → f = g := by
  rw [factorLeB_iff, factorLeB_iff]
  intro h1 h2
  cases hfg : f.cmp g with
  | lt => exact absurd (fcmp_eq_gt.mpr hfg) h2
  | eq => exact fcmp_eq_eq.mp hfg
  | gt => exact absurd hfg h1

/-! ### Sorting lemmas for `sortFactors` -/

theorem insertFactor_perm (f : ScalarFactor) (l : List ScalarFactor) :
    List.Perm (insertFactor f l) (f :: l) := by
  induction l with
  | nil => exact List.Perm.refl _
  | cons g gs ih =>
    unfold insertFactor
    split_ifs
    · exact List.Perm.refl _
    · exact (List.Perm.cons g ih).trans (List.Perm.swap f g gs)

theorem sortFactors_perm (l : List ScalarFactor) : List.Perm (sortFactors l) l := by
  induction l with
  | nil => exact List.Perm.refl _
  | cons f fs ih =>
    exact (insertFactor_perm f (sortFactors fs)).trans (List.Perm.cons f ih)

theorem mem_insertFactor {x f : ScalarFactor} {l : List ScalarFactor} :
    x ∈ insertFactor f l ↔ x = f ∨ x ∈ l := by
  rw [(insertFactor_perm f l).mem_iff, List.mem_cons]

theorem insertFactor_pairwise {f : ScalarFactor} {l : List ScalarFactor}
    (h : l.Pairwise (fun a b => factorLeB a b = true)) :
    (insertFactor f l).Pairwise (fun a b => factorLeB a b = true) := by
  induction l with
  | nil => simp [insertFactor]
  | cons g gs ih =>
    rw [List.pairwise_cons] at h
    unfold insertFactor
    split_ifs with hle
    · refine List.Pairwise.cons ?_ (List.Pairwise.cons h.1 h.2)
      intro x hx
      rcases List.mem_cons.mp hx with rfl | hx
      · exact hle
      · exact factorLeB_trans hle (h.1 x hx)
    · have hgf : factorLeB g f = true := by
        rcases factorLeB_total f g with h' | h'
        · exact absurd h' (by simp_all)
        · exact h'
      refine List.Pairwise.cons ?_ (ih h.2)
      intro x hx
      rcases mem_insertFactor.mp hx with rfl | hx
      · exact hgf
      · exact h.1 x hx

theorem sortFactors_pairwise (l : List ScalarFactor) :
    (sortFactors l).Pairwise (fun a b => factorLeB a b = true) := by
  induction l with
  | nil => simp [sortFactors]
  | cons f fs ih => exact insertFactor_pairwise ih

theorem sortFactors_length (l : List ScalarFactor) :
    (sortFactors l).length = l.length :=
  (sortFactors_perm l).length_eq

theorem sortFactors_count (f : ScalarFactor) (l : List ScalarFactor) :
    (sortFactors l).count f = l.count f :=
  (sortFactors_perm l).count_eq f

/-! ### Lexicographic comparison of factor sequences -/

theorem listCmp_eq_eq {l m : List ScalarFactor} : listCmp l m = .eq ↔ l = m := by
  induction l generalizing m with
  | nil => cases m <;> simp [listCmp]
  | cons f fs ih =>
    cases m with
    | nil => simp [listCmp]
    | cons g gs => simp [listCmp, then_eq_eq, fcmp_eq_eq, ih]

theorem listCmp_eq_gt {l m : List ScalarFactor} :
    listCmp l m = .gt ↔ listCmp m l = .lt := by
  induction l generalizing m with
  | nil => cases m <;> simp [listCmp]
  | cons f fs ih =>
    cases m with
    | nil => simp [listCmp]
    | cons g gs =>
      simp only [listCmp, then_eq_gt, then_eq_lt, fcmp_eq_gt, ih]
      constructor
      · rintro (h | ⟨h1, h2⟩)
        · exact Or.inl h
        · exact Or.inr ⟨by rw [fcmp_eq_eq] at h1 ⊢; exact h1.symm, h2⟩
      · rintro (h | ⟨h1, h2⟩)
        · exact Or.inl h
        · exact Or.inr ⟨by rw [fcmp_eq_eq] at h1 ⊢; exact h1.symm, h2⟩

theorem listCmp_lt_trans {l m k : List ScalarFactor} :
    listCmp l m = .lt → listCmp m k = .lt → listCmp l k = .lt := by
  induction l generalizing m k with
  | nil =>
    intro _ _
    cases k with
    | nil =>
      cases m with
      | nil => simp_all [listCmp]
      | cons g gs => simp_all [listCmp]
    | cons h hs => simp [listCmp]
  | cons f fs ih =>
    intro h1 h2
    cases m with
    | nil => simp_all [listCmp]
    | cons g gs =>
      cases k with
      | nil => simp_all [listCmp]
      | cons h hs =>
        rw [listCmp, then_eq_lt] at h1 h2 ⊢
        rcases h1 with h1 | ⟨h1e, h1r⟩
        · rcases h2 with h2 | ⟨h2e, h2r⟩
          · exact Or.inl (fcmp_lt_trans h1 h2)
          · rw [fcmp_eq_eq] at h2e; subst h2e; exact Or.inl h1
        · rw [fcmp_eq_eq] at h1e; subst h1e
          rcases h2 with h2 | ⟨h2e, h2r⟩
          · exact Or.inl h2
          · rw [fcmp_eq_eq] at h2e; subst h2e
            exact Or.inr ⟨fcmp_self, ih h1r h2r⟩

theorem tsCmp_eq_eq {t u : TensorStructure} :
    t.cmp u = .eq ↔ t.factors = u.factors :=
  listCmp_eq_eq

theorem tsCmp_eq_gt {t u : TensorStructure} :
    t.cmp u = .gt ↔ u.cmp t = .lt :=
  listCmp_eq_gt

theorem tsCmp_lt_trans {t u v : TensorStructure} :
    t.cmp u = .lt → u.cmp v = .lt → t.cmp v = .lt :=
  listCmp_lt_trans

/-! ### Lemmas on the sorted-set insertion -/

theorem mem_insertTS {x t : TensorStructure} {out : List TensorStructure} :
    x ∈ insertTS t out → x = t ∨ x ∈ out := by
  induction out with
  | nil => simp [insertTS]
  | cons u us ih =>
    unfold insertTS
    cases t.cmp u <;> intro hx <;> simp_all
    rcases hx with rfl | hx
    · simp
    · rcases ih hx with rfl | h
      · simp
      · simp [h]

theorem mem_insertTS_of_mem {x t : TensorStructure} {out : List TensorStructure}
    (hx : x ∈ out) : x ∈ insertTS t out := by
  induction out with
  | nil => simp_all
  | cons u us ih =>
    unfold insertTS
    cases h : t.cmp u with
    | lt => exact List.mem_cons_of_mem t hx
    | eq => exact hx
    | gt =>
      rcases List.mem_cons.mp hx with rfl | hx2
      · exact List.mem_cons_self _ _
      · exact List.mem_cons_of_mem u (ih hx2)

theorem self_mem_insertTS {t : TensorStructure} {out : List TensorStructure} :
    t ∈ insertTS t out ∨ ∃ u ∈ out, u.factors = t.factors := by
  induction out with
  | nil => simp [insertTS]
  | cons u us ih =>
    unfold insertTS
    cases h : t.cmp u with
    | lt => simp
    | eq =>
      right
      exact ⟨u, by simp, (tsCmp_eq_eq.mp h).symm⟩
    | gt =>
      rcases ih with h' | ⟨v, hv, hvf⟩
      · left; simp [h']
      · right; exact ⟨v, by simp [hv], hvf⟩

theorem insertTS_pairwise {t : TensorStructure} {out : List TensorStructure}
    (h : out.Pairwise (fun a b => a.cmp b = .lt)) :
    (insertTS t out).Pairwise (fun a b => a.cmp b = .lt) := by
  induction out with
  | nil => simp [insertTS]
  | cons u us ih =>
    rw [List.pairwise_cons] at h
    unfold insertTS
    cases hc : t.cmp u with
    | lt =>
      refine List.Pairwise.cons ?_ (List.Pairwise.cons h.1 h.2)
      intro x hx
      rcases List.mem_cons.mp hx with rfl | hx2
      · exact hc
      · exact tsCmp_lt_trans hc (h.1 x hx2)
    | eq => exact List.Pairwise.cons h.1 h.2
    | gt =>
      refine List.Pairwise.cons ?_ (ih h.2)
      intro x hx
      rcases mem_insertTS hx with rfl | hx2
      · exact tsCmp_eq_gt.mp hc
      · exact h.1 x hx2

/-- Auxiliary: a predicate on accumulators preserved by each fold step is
preserved by the whole fold. -/
theorem foldl_preserve {α : Type} {Q : List TensorStructure → Prop}
    {g : List TensorStructure → α → List TensorStructure}
    (hg : ∀ o a, Q o → Q (g o a)) :
    ∀ (l : List α) (o : List TensorStructure), Q o → Q (List.foldl g o l) := by
  intro l
  induction l with
  | nil => intro o h; exact h
  | cons a l ih => intro o h; exact ih (g o a) (hg o a h)

/-! ### Generic invariants of the search -/

/-- Every structure in the output of `dfs_emit` either was in `out` already or
is the canonicalization of a state reached from `s` by pushing factors, at a
leaf that passed the acceptance tests.  `I` is a state invariant preserved by
`pushFactor`, and `P` the property of accepted structures it yields. -/
theorem dfs_emit_invariant (P : TensorStructure → Prop) (I : DfsState → Prop)
    (hpush : ∀ s f, I s → I (pushFactor s f))
    (haccept : ∀ s : DfsState, I s →
      s.cur.factors.length = s.target_deg →
      s.cur.ee_contractions = s.ee_needed →
      (s.enforce_one_pol = true →
        2 * s.cur.ee_contractions + s.pe_so_far = s.nlegs ∧
          ∀ r ∈ legRange s.nlegs, s.pol_count r = 1) →
      P s.cur.canonicalize) :
    ∀ (fuel : Nat) (s : DfsState) (idx : Nat) (out : List TensorStructure),
      I s → (∀ u ∈ out, P u) → ∀ u ∈ dfs_emit fuel s idx out, P u := by
  intro fuel
  induction fuel with
  | zero => intro s idx out _ hout; simpa [dfs_emit] using hout
  | succ fuel ih =>
    intro s idx out hI hout
    rw [dfs_emit]
    split_ifs with h1 h2 h3 h4 h5 h6
    · exact hout
    · exact hout
    · -- unrestricted acceptance
      intro u hu
      rcases mem_insertTS hu with rfl | hu2
      · exact haccept s hI h3 h4 (fun he => by simp [he] at h5)
      · exact hout u hu2
    · -- one-pol-per-leg acceptance
      intro u hu
      rcases mem_insertTS hu with rfl | hu2
      · refine haccept s hI h3 h4 (fun he => ⟨h6.1, ?_⟩)
        intro r hr
        have := h6.2
        rw [List.all_eq_true] at this
        simpa using this r hr
      · exact hout u hu2
    · exact hout
    · exact hout
    · -- branch: fold over the remaining catalog indices
      refine foldl_preserve (Q := fun o => ∀ u ∈ o, P u) (fun o i ho => ?_) _ out hout
      exact ih (pushFactor s (s.catalog.getD i (ScalarFactor.pp 0 0))) i o
        (hpush s _ hI) ho

/-- Anything already in `out` stays in the output of `dfs_emit`. -/
theorem dfs_emit_mono :
    ∀ (fuel : Nat) (s : DfsState) (idx : Nat) (out : List TensorStructure),
      ∀ u ∈ out, u ∈ dfs_emit fuel s idx out := by
  intro fuel
  induction fuel with
  | zero => intro s idx out u hu; simpa [dfs_emit] using hu
  | succ fuel ih =>
    intro s idx out u hu
    rw [dfs_emit]
    split_ifs with h1 h2 h3 h4 h5 h6
    · exact hu
    · exact hu
    · exact mem_insertTS_of_mem hu
    · exact mem_insertTS_of_mem hu
    · exact hu
    · exact hu
    · exact foldl_preserve (Q := fun o => u ∈ o)
        (fun o i ho => ih (pushFactor s (s.catalog.getD i (ScalarFactor.pp 0 0))) i o u ho)
        _ out hu

/-- The output list of `dfs_emit` stays strictly sorted. -/
theorem dfs_emit_pairwise_lt :
    ∀ (fuel : Nat) (s : DfsState) (idx : Nat) (out : List TensorStructure),
      out.Pairwise (fun a b => a.cmp b = .lt) →
      (dfs_emit fuel s idx out).Pairwise (fun a b => a.cmp b = .lt) := by
  intro fuel
  induction fuel with
  | zero => intro s idx out h; simpa [dfs_emit] using h
  | succ fuel ih =>
    intro s idx out h
    rw [dfs_emit]
    split_ifs with h1 h2 h3 h4 h5 h6
    · exact h
    · exact h
    · exact insertTS_pairwise h
    · exact insertTS_pairwise h
    · exact h
    · exact h
    · exact foldl_preserve (Q := fun o => o.Pairwise fun a b => a.cmp b = .lt)
        (fun o i ho => ih (pushFactor s (s.catalog.getD i (ScalarFactor.pp 0 0))) i o ho)
        _ out h

/-- C7: the sequence returned by `generate_tensor_structures` is strictly
increasing under the `TensorStructure` order (hence pairwise distinct), and
every returned structure's factor sequence is non-decreasing under the
`ScalarFactor` order. -/
theorem c7_sorted_output_canonical_factors (cfg : GenConfig) (D E : Nat) :
    (generate_tensor_structures cfg D E).Pairwise
        (fun t u => t.cmp u = Ordering.lt) ∧
      ∀ t ∈ generate_tensor_structures cfg D E,
        t.factors.Pairwise (fun f g => factorLeB f g = true) := by
  unfold generate_tensor_structures
  split_ifs with h1 h2
  · simp
  · simp
  · constructor
    · exact dfs_emit_pairwise_lt _ _ _ _ List.Pairwise.nil
    · exact dfs_emit_invariant _ (fun _ => True) (fun _ _ _ => trivial)
        (fun s _ _ _ _ => sortFactors_pairwise s.cur.factors) _ _ _ _ trivial
        (by simp)

/-- C7 witness. -/
theorem c7_sorted_output_canonical_factors_witness :
    (generate_tensor_structures ⟨4, .ForbidPiDotEi, .OnePerLeg⟩ 2 2).Pairwise
        (fun t u => t.cmp u = Ordering.lt) ∧
      (⟨[ScalarFactor.ee 1 2, ScalarFactor.ee 3 4], 2⟩ :
          TensorStructure).factors.Pairwise (fun f g => factorLeB f g = true) :=
  ⟨(c7_sorted_output_canonical_factors ⟨4, .ForbidPiDotEi, .OnePerLeg⟩ 2 2).1,
    (c7_sorted_output_canonical_factors ⟨4, .ForbidPiDotEi, .OnePerLeg⟩ 2 2).2
      ⟨[ScalarFactor.ee 1 2, ScalarFactor.ee 3 4], 2⟩ (by decide)⟩

/-! ### Counting EE factors and polarization occurrences -/

/-- Number of EE-kind factors in a factor sequence. -/
def countEE (fs : List ScalarFactor) : Nat :=
  fs.countP fun f => f.kind == ScalarKind.EE

theorem countEE_append_singleton (fs : List ScalarFactor) (f : ScalarFactor) :
    countEE (fs ++ [f]) =
      countEE fs + (if f.kind = ScalarKind.EE then 1 else 0) := by
  unfold countEE
  rw [List.countP_append]
  simp [List.countP_cons, beq_iff_eq]

theorem countEE_perm {fs gs : List ScalarFactor} (h : List.Perm fs gs) :
    countEE fs = countEE gs :=
  h.countP_eq _

/-- Number of polarization occurrences of leg `r` contributed by one factor:
a PE factor touches its polarization leg `b` once, an EE factor touches each
endpoint once. -/
def polOccF (r : Nat) (f : ScalarFactor) : Nat :=
  match f.kind with
  | .PE => if f.b = r then 1 else 0
  | .EE => (if f.a = r then 1 else 0) + (if f.b = r then 1 else 0)
  | .PP => 0

/-- Total polarization occurrences of leg `r` across a factor sequence. -/
def polOcc (r : Nat) (fs : List ScalarFactor) : Nat :=
  (fs.map (polOccF r)).sum

theorem polOcc_append_singleton (r : Nat) (fs : List ScalarFactor)
    (f : ScalarFactor) :
    polOcc r (fs ++ [f]) = polOcc r fs + polOccF r f := by
  unfold polOcc
  rw [List.map_append, List.sum_append]
  simp

theorem polOcc_perm {r : Nat} {fs gs : List ScalarFactor}
    (h : List.Perm fs gs) : polOcc r fs = polOcc r gs :=
  (h.map (polOccF r)).sum_eq

theorem add_polarizations_apply (pc : Nat → Nat) (f : ScalarFactor) (r : Nat) :
    add_polarizations pc f r = pc r + polOccF r f := by
  unfold add_polarizations polOccF
  cases f.kind with
  | PP => simp
  | PE => unfold bumpPol; split_ifs with h <;> simp_all <;> omega
  | EE =>
    unfold bumpPol
    by_cases hb : r = f.b <;> by_cases ha : r = f.a <;> simp_all <;> omega

/-- C9: every returned structure's cached `ee_contractions` equals the number
of EE-kind factors in its factor sequence, and that number equals the
requested `ee_contractions` argument. -/
theorem c9_ee_cache_consistent (cfg : GenConfig) (D E : Nat) :
    ∀ t ∈ generate_tensor_structures cfg D E,
      t.ee_contractions = countEE t.factors ∧ t.ee_contractions = E := by
  unfold generate_tensor_structures
  split_ifs with h1 h2
  · simp
  · simp
  · refine dfs_emit_invariant _
      (fun s => s.cur.ee_contractions = countEE s.cur.factors ∧ s.ee_needed = E)
      ?_ ?_ _ _ _ _ ⟨by simp [TensorStructure.new, countEE], rfl⟩ (by simp)
    · intro s f hI
      refine ⟨?_, hI.2⟩
      simp [pushFactor, countEE_append_singleton, hI.1]
    · intro s hI hlen hee _
      have hc : countEE (s.cur.canonicalize).factors = countEE s.cur.factors :=
        countEE_perm (sortFactors_perm _)
      have hfield : (s.cur.canonicalize).ee_contractions = s.cur.ee_contractions :=
        rfl
      rw [hfield, hc]
      exact ⟨hI.1, hee.trans hI.2⟩

/-- C9 witness. -/
theorem c9_ee_cache_consistent_witness :
    (⟨[ScalarFactor.ee 1 2, ScalarFactor.ee 3 4], 2⟩ :
        TensorStructure).ee_contractions =
      countEE (⟨[ScalarFactor.ee 1 2, ScalarFactor.ee 3 4], 2⟩ :
        TensorStructure).factors ∧
    (⟨[ScalarFactor.ee 1 2, ScalarFactor.ee 3 4], 2⟩ :
        TensorStructure).ee_contractions = 2 :=
  c9_ee_cache_consistent ⟨4, .ForbidPiDotEi, .OnePerLeg⟩ 2 2
    ⟨[ScalarFactor.ee 1 2, ScalarFactor.ee 3 4], 2⟩ (by decide)

/-- C5: with `OnePerLeg` enforced, every returned structure has exactly
`target_degree` factors and touches each leg's polarization exactly once. -/
theorem c5_one_pol_per_leg_invariant (cfg : GenConfig) (D E : Nat)
    (hpat : cfg.pol_pattern = PolarizationPattern.OnePerLeg) :
    ∀ t ∈ generate_tensor_structures cfg D E,
      t.factors.length = D ∧
        ∀ r, 1 ≤ r → r ≤ cfg.n_legs → polOcc r t.factors = 1 := by
  unfold generate_tensor_structures
  split_ifs with h1 h2
  · simp
  · simp
  · refine dfs_emit_invariant _
      (fun s => s.enforce_one_pol = true ∧ s.target_deg = D ∧
        s.nlegs = cfg.n_legs ∧ ∀ r, s.pol_count r = polOcc r s.cur.factors)
      ?_ ?_ _ _ _ _
      ⟨by simp [hpat], rfl, rfl,
        fun r => by simp [TensorStructure.new, polOcc]⟩
      (by simp)
    · intro s f hI
      obtain ⟨he, ht, hn, hpc⟩ := hI
      refine ⟨he, ht, hn, fun r => ?_⟩
      show (if s.enforce_one_pol then add_polarizations s.pol_count f
          else s.pol_count) r = polOcc r (s.cur.factors ++ [f])
      rw [he]
      simp only [if_true]
      rw [add_polarizations_apply, hpc, polOcc_append_singleton]
    · intro s hI hlen hee hq
      obtain ⟨he, ht, hn, hpc⟩ := hI
      obtain ⟨hsum, hall⟩ := hq he
      constructor
      · show (sortFactors s.cur.factors).length = D
        rw [sortFactors_length, hlen, ht]
      · intro r h1r hrn
        have hr : r ∈ legRange s.nlegs := by
          rw [hn]
          exact List.mem_range'_1.mpr ⟨h1r, by omega⟩
        have hone := hall r hr
        rw [hpc] at hone
        calc polOcc r (s.cur.canonicalize).factors
            = polOcc r s.cur.factors := polOcc_perm (sortFactors_perm _)
          _ = 1 := hone

/-- C5 witness. -/
theorem c5_one_pol_per_leg_invariant_witness :
    (⟨[ScalarFactor.ee 1 2, ScalarFactor.ee 3 4], 2⟩ :
        TensorStructure).factors.length = 2 ∧
    polOcc 3 (⟨[ScalarFactor.ee 1 2, ScalarFactor.ee 3 4], 2⟩ :
        TensorStructure).factors = 1 := by
  have h := c5_one_pol_per_leg_invariant ⟨4, .ForbidPiDotEi, .OnePerLeg⟩ 2 2 rfl
    ⟨[ScalarFactor.ee 1 2, ScalarFactor.ee 3 4], 2⟩ (by decide)
  exact ⟨h.1, h.2 3 (by decide) (by decide)⟩

/-! ### The superset relation between `Unrestricted` and `OnePerLeg` runs -/

theorem pushFactor_ee_consistent {s : DfsState} (f : ScalarFactor)
    (h : s.cur.ee_contractions = countEE s.cur.factors) :
    (pushFactor s f).cur.ee_contractions =
      countEE (pushFactor s f).cur.factors := by
  show s.cur.ee_contractions + _ = countEE (s.cur.factors ++ [f])
  rw [countEE_append_singleton, h]

theorem pushFactor_cur_eq {sO sU : DfsState} (f : ScalarFactor)
    (h : sU.cur = sO.cur) :
    (pushFactor sU f).cur = (pushFactor sO f).cur := by
  simp [pushFactor, h]

/-- Every structure in the output of `dfs_emit` has a consistent cached EE
count, provided the current partial structure and `out` do. -/
theorem dfs_emit_eeOK (fuel : Nat) (s : DfsState) (idx : Nat)
    (out : List TensorStructure)
    (hs : s.cur.ee_contractions = countEE s.cur.factors)
    (hout : ∀ u ∈ out, u.ee_contractions = countEE u.factors) :
    ∀ u ∈ dfs_emit fuel s idx out,
      u.ee_contractions = countEE u.factors := by
  refine dfs_emit_invariant _
    (fun s => s.cur.ee_contractions = countEE s.cur.factors)
    (fun s f h => pushFactor_ee_consistent f h) ?_ fuel s idx out hs hout
  intro s hI _ _ _
  have hc : countEE (s.cur.canonicalize).factors = countEE s.cur.factors :=
    countEE_perm (sortFactors_perm _)
  have hfield : (s.cur.canonicalize).ee_contractions =
      s.cur.ee_contractions := rfl
  rw [hfield, hc]
  exact hI

/-- Inserting an EE-consistent structure into an EE-consistent sorted set
always makes it a member: a colliding element with the same factor sequence
is the very same structure. -/
theorem self_mem_insertTS_of_eeOK {t : TensorStructure}
    {out : List TensorStructure}
    (hout : ∀ u ∈ out, u.ee_contractions = countEE u.factors)
    (ht : t.ee_contractions = countEE t.factors) :
    t ∈ insertTS t out := by
  rcases @self_mem_insertTS t out with h | ⟨u, hu, huf⟩
  · exact h
  · have h1 := hout u hu
    have h2 : u = t := by
      have h3 : u.ee_contractions = t.ee_contractions := by rw [h1, huf, ht]
      cases t; cases u
      simp_all
    exact mem_insertTS_of_mem (h2 ▸ hu)

/-- Core of the superset property: a search with one-pol-per-leg enforcement
only ever prunes branches and strengthens the leaf test relative to the
unrestricted search over the same catalog, so its output members all appear
in the unrestricted output. -/
theorem dfs_emit_subset :
    ∀ (fuel : Nat) (sO sU : DfsState) (idx : Nat)
      (outO outU : List TensorStructure),
      sU.target_deg = sO.target_deg → sU.ee_needed = sO.ee_needed →
      sU.catalog = sO.catalog → sU.cur = sO.cur →
      sO.enforce_one_pol = true → sU.enforce_one_pol = false →
      sO.cur.ee_contractions = countEE sO.cur.factors →
      (∀ u ∈ outU, u.ee_contractions = countEE u.factors) →
      (∀ u ∈ outO, u ∈ outU) →
      ∀ u ∈ dfs_emit fuel sO idx outO, u ∈ dfs_emit fuel sU idx outU := by
  intro fuel
  induction fuel with
  | zero =>
    intro sO sU idx outO outU _ _ _ _ _ _ _ _ hsub u hu
    rw [dfs_emit] at hu ⊢
    exact hsub u hu
  | succ fuel ih =>
    intro sO sU idx outO outU hT hE hC hcur heO heU hee houtU hsub u hu
    rw [dfs_emit] at hu
    split_ifs at hu with h1 h2 h3 h4 h5 h6
    · exact dfs_emit_mono _ sU idx outU u (hsub u hu)
    · exact dfs_emit_mono _ sU idx outU u (hsub u hu)
    · -- unrestricted acceptance on the enforcing side: impossible
      simp [heO] at h5
    · -- one-pol acceptance: the unrestricted run accepts the same leaf
      have hdeg : sU.cur.factors.length = sU.target_deg := by
        rw [hcur, hT]; exact h3
      have heeq : sU.cur.ee_contractions = sU.ee_needed := by
        rw [hcur, hE]; exact h4
      have hUrun : dfs_emit (fuel + 1) sU idx outU =
          insertTS sU.cur.canonicalize outU := by
        rw [dfs_emit]
        simp [hdeg, heeq, heU]
      rw [hUrun, hcur]
      rcases mem_insertTS hu with rfl | hu2
      · refine self_mem_insertTS_of_eeOK houtU ?_
        show sO.cur.ee_contractions = countEE (sortFactors sO.cur.factors)
        rw [hee]
        exact (countEE_perm (sortFactors_perm _)).symm
      · exact mem_insertTS_of_mem (hsub u hu2)
    · exact dfs_emit_mono _ sU idx outU u (hsub u hu)
    · exact dfs_emit_mono _ sU idx outU u (hsub u hu)
    · -- both sides branch over the same catalog indices
      have hov : ¬(sU.cur.factors.length > sU.target_deg ∨
          sU.cur.ee_contractions > sU.ee_needed) := by
        rw [hcur, hT, hE]; exact h1
      have hne : ¬(sU.cur.factors.length = sU.target_deg) := by
        rw [hcur, hT]; exact h3
      have hUrun : dfs_emit (fuel + 1) sU idx outU =
          (List.range' idx (sU.catalog.length - idx)).foldl
            (fun acc i =>
              dfs_emit fuel
                (pushFactor sU (sU.catalog.getD i (ScalarFactor.pp 0 0))) i acc)
            outU := by
        rw [dfs_emit]
        simp only [if_neg hov, if_neg hne, heU, Bool.false_and,
          Bool.false_eq_true, if_false]
      rw [hUrun, hC]
      revert hu
      have main : ∀ (L : List Nat) (oO oU : List TensorStructure),
          (∀ v ∈ oU, v.ee_contractions = countEE v.factors) →
          (∀ v ∈ oO, v ∈ oU) →
          ∀ v ∈ L.foldl
              (fun acc i =>
                dfs_emit fuel
                  (pushFactor sO (sO.catalog.getD i (ScalarFactor.pp 0 0))) i acc)
              oO,
            v ∈ L.foldl
              (fun acc i =>
                dfs_emit fuel
                  (pushFactor sU (sO.catalog.getD i (ScalarFactor.pp 0 0))) i acc)
              oU := by
        intro L
        induction L with
        | nil => intro oO oU _ hs v hv; exact hs v hv
        | cons i L ihL =>
          intro oO oU hoU hs v hv
          simp only [List.foldl_cons] at hv ⊢
          refine ihL _ _ ?_ ?_ v hv
          · -- the unrestricted accumulator stays EE-consistent
            refine dfs_emit_eeOK fuel _ i oU ?_ hoU
            refine pushFactor_ee_consistent _ ?_
            rw [hcur, hee]
          · -- one parallel step: apply the fuel induction hypothesis
            intro w hw
            refine ih (pushFactor sO (sO.catalog.getD i (ScalarFactor.pp 0 0)))
              (pushFactor sU (sO.catalog.getD i (ScalarFactor.pp 0 0))) i oO oU
              hT hE (by simp [pushFactor, hC]) (pushFactor_cur_eq _ hcur)
              heO heU (pushFactor_ee_consistent _ hee) hoU hs w hw
      intro hv
      have := main (List.range' idx (sO.catalog.length - idx)) outO outU houtU
        hsub u hv
      simpa [hC] using this

/-- The catalog builder never looks at the polarization pattern. -/
theorem generate_valid_factors_pol_irrel (n : Nat) (tv : Transversality)
    (p q : PolarizationPattern) :
    generate_valid_factors ⟨n, tv, p⟩ = generate_valid_factors ⟨n, tv, q⟩ := rfl

/-- C6: for a fixed `n_legs` and transversality mode and fixed
`(target_degree, ee_contractions)`, every structure returned under the
`OnePerLeg` pattern is also returned under the `Unrestricted` pattern. -/
theorem c6_unrestricted_superset (n : Nat) (tv : Transversality) (D E : Nat) :
    ∀ t ∈ generate_tensor_structures ⟨n, tv, .OnePerLeg⟩ D E,
      t ∈ generate_tensor_structures ⟨n, tv, .Unrestricted⟩ D E := by
  unfold generate_tensor_structures
  split_ifs with h1 h2
  · simp
  · simp
  · intro t ht
    exact dfs_emit_subset (D + 1)
      { target_deg := D, ee_needed := E, nlegs := n,
        enforce_one_pol := true,
        catalog := (generate_valid_factors ⟨n, tv, .OnePerLeg⟩).1 ++
          (generate_valid_factors ⟨n, tv, .OnePerLeg⟩).2.1 ++
          (generate_valid_factors ⟨n, tv, .OnePerLeg⟩).2.2,
        cur := TensorStructure.new, pe_so_far := 0, pol_count := fun _ => 0 }
      { target_deg := D, ee_needed := E, nlegs := n,
        enforce_one_pol := false,
        catalog := (generate_valid_factors ⟨n, tv, .Unrestricted⟩).1 ++
          (generate_valid_factors ⟨n, tv, .Unrestricted⟩).2.1 ++
          (generate_valid_factors ⟨n, tv, .Unrestricted⟩).2.2,
        cur := TensorStructure.new, pe_so_far := 0, pol_count := fun _ => 0 }
      0 [] [] rfl rfl
      (congrArg (fun x => x.1 ++ x.2.1 ++ x.2.2)
        (generate_valid_factors_pol_irrel n tv .Unrestricted .OnePerLeg))
      rfl rfl rfl (by simp [TensorStructure.new, countEE]) (by simp) (by simp)
      t ht

/-- C6 witness. -/
theorem c6_unrestricted_superset_witness :
    (⟨[ScalarFactor.ee 1 2, ScalarFactor.ee 3 4], 2⟩ : TensorStructure) ∈
      generate_tensor_structures ⟨4, .ForbidPiDotEi, .Unrestricted⟩ 2 2 :=
  c6_unrestricted_superset 4 .ForbidPiDotEi 2 2
    ⟨[ScalarFactor.ee 1 2, ScalarFactor.ee 3 4], 2⟩ (by decide)

/-! ### Characterization of the factor catalog (C4) -/

theorem mem_ppList {cfg : GenConfig} {f : ScalarFactor} :
    f ∈ (generate_valid_factors cfg).1 ↔
      ∃ i j, f = ScalarFactor.pp i j ∧ 1 ≤ i ∧ i < j ∧ j ≤ cfg.n_legs ∧
        i ≠ cfg.n_legs ∧ j ≠ cfg.n_legs := by
  show f ∈ sortFactors _ ↔ _
  rw [(sortFactors_perm _).mem_iff]
  simp only [legRange, List.mem_flatMap, List.mem_filterMap, List.mem_range'_1,
    Option.ite_none_left_eq_some, Option.some.injEq]
  constructor
  · rintro ⟨i, ⟨h1, h2⟩, j, ⟨h3, h4⟩, h5, rfl⟩
    push_neg at h5
    exact ⟨i, j, rfl, h1, by omega, by omega, h5.1, h5.2⟩
  · rintro ⟨i, j, rfl, h1, h2, h3, h4, h5⟩
    exact ⟨i, ⟨h1, by omega⟩, j, ⟨by omega, by omega⟩, by push_neg; exact ⟨h4, h5⟩,
      rfl⟩

theorem mem_peList {cfg : GenConfig} {f : ScalarFactor} :
    f ∈ (generate_valid_factors cfg).2.1 ↔
      ∃ i j, f = ScalarFactor.pe i j ∧ 1 ≤ i ∧ i ≤ cfg.n_legs - 1 ∧
        1 ≤ j ∧ j ≤ cfg.n_legs ∧
        (cfg.transversality = Transversality.ForbidPiDotEi → i ≠ j) ∧
        ¬(i = 1 ∧ j = cfg.n_legs) := by
  show f ∈ sortFactors _ ↔ _
  rw [(sortFactors_perm _).mem_iff]
  simp only [legRange, List.mem_flatMap, List.mem_range'_1,
    List.mem_ite_nil_left, List.mem_filterMap, Option.ite_none_left_eq_some,
    Option.some.injEq]
  constructor
  · rintro ⟨i, ⟨h1, h2⟩, hin, j, ⟨h3, h4⟩, h5, h6, rfl⟩
    push_neg at h5 h6
    refine ⟨i, j, rfl, h1, by omega, h3, by omega, ?_, ?_⟩
    · intro htv hij
      exact absurd (h5 htv) (by simp [hij])
    · rintro ⟨rfl, rfl⟩
      exact absurd rfl (h6 rfl)
  · rintro ⟨i, j, rfl, h1, h2, h3, h4, h5, h6⟩
    have hn : 1 ≤ cfg.n_legs := by omega
    refine ⟨i, ⟨h1, by omega⟩, by omega, j, ⟨h3, by omega⟩, ?_, ?_, rfl⟩
    · rintro ⟨htv, rfl⟩
      exact h5 htv rfl
    · rintro ⟨rfl, rfl⟩
      exact h6 ⟨rfl, rfl⟩

theorem mem_eeList {cfg : GenConfig} {f : ScalarFactor} :
    f ∈ (generate_valid_factors cfg).2.2 ↔
      ∃ i j, f = ScalarFactor.ee i j ∧ 1 ≤ i ∧ i < j ∧ j ≤ cfg.n_legs := by
  show f ∈ sortFactors _ ↔ _
  rw [(sortFactors_perm _).mem_iff]
  simp only [legRange, List.mem_flatMap, List.mem_range'_1, List.mem_map]
  constructor
  · rintro ⟨i, ⟨h1, h2⟩, j, ⟨h3, h4⟩, rfl⟩
    exact ⟨i, j, rfl, h1, by omega, by omega⟩
  · rintro ⟨i, j, rfl, h1, h2, h3⟩
    exact ⟨i, ⟨h1, by omega⟩, j, ⟨by omega, by omega⟩, rfl⟩

theorem ppList_nodup (cfg : GenConfig) : (generate_valid_factors cfg).1.Nodup := by
  show (sortFactors _).Nodup
  rw [(sortFactors_perm _).nodup_iff, List.nodup_flatMap]
  constructor
  · intro i _
    refine List.Nodup.filterMap ?_ (List.nodup_range' _ _)
    intro a a' b hb hb'
    simp only [Option.mem_def, Option.ite_none_left_eq_some,
      Option.some.injEq] at hb hb'
    obtain ⟨-, rfl⟩ := hb
    obtain ⟨-, h⟩ := hb'
    have h2 : a' = a := by simpa [ScalarFactor.pp] using h
    exact h2.symm
  · refine (List.pairwise_lt_range' 1 cfg.n_legs).imp ?_
    intro i i' hlt x hx hx'
    simp only [List.mem_filterMap, Option.ite_none_left_eq_some,
      Option.some.injEq] at hx hx'
    obtain ⟨j, -, -, rfl⟩ := hx
    obtain ⟨j', -, -, h⟩ := hx'
    have h2 : i' = i := by simpa [ScalarFactor.pp] using congrArg ScalarFactor.a h
    omega

theorem peList_nodup (cfg : GenConfig) :
    (generate_valid_factors cfg).2.1.Nodup := by
  show (sortFactors _).Nodup
  rw [(sortFactors_perm _).nodup_iff, List.nodup_flatMap]
  constructor
  · intro i _
    split_ifs
    · exact List.nodup_nil
    · refine List.Nodup.filterMap ?_ (List.nodup_range' _ _)
      intro a a' b hb hb'
      simp only [Option.mem_def, Option.ite_none_left_eq_some,
        Option.some.injEq] at hb hb'
      obtain ⟨-, -, rfl⟩ := hb
      obtain ⟨-, -, h⟩ := hb'
      have h2 : a' = a := by simpa [ScalarFactor.pe] using h
      exact h2.symm
  · refine (List.pairwise_lt_range' 1 cfg.n_legs).imp ?_
    intro i i' hlt x hx hx'
    rw [List.mem_ite_nil_left] at hx hx'
    obtain ⟨-, hx⟩ := hx
    obtain ⟨-, hx'⟩ := hx'
    simp only [List.mem_filterMap, Option.ite_none_left_eq_some,
      Option.some.injEq] at hx hx'
    obtain ⟨j, -, -, -, rfl⟩ := hx
    obtain ⟨j', -, -, -, h⟩ := hx'
    have h2 : i' = i := by simpa [ScalarFactor.pe] using congrArg ScalarFactor.a h
    omega

theorem eeList_nodup (cfg : GenConfig) :
    (generate_valid_factors cfg).2.2.Nodup := by
  show (sortFactors _).Nodup
  rw [(sortFactors_perm _).nodup_iff, List.nodup_flatMap]
  constructor
  · intro i _
    refine List.Nodup.map ?_ (List.nodup_range' _ _)
    intro a a' h
    simpa [ScalarFactor.ee] using h
  · refine (List.pairwise_lt_range' 1 cfg.n_legs).imp ?_
    intro i i' hlt x hx hx'
    simp only [List.mem_map] at hx hx'
    obtain ⟨j, -, rfl⟩ := hx
    obtain ⟨j', -, h⟩ := hx'
    have h2 : i' = i := by simpa [ScalarFactor.ee] using congrArg ScalarFactor.a h
    omega

/-- C4: for every config with `n_legs ≥ 1` the catalog builder returns three
internally sorted, duplicate-free lists: PP holds exactly the pairs `i < j`
in `[1, n]` avoiding leg `n`; PE exactly the pairs `(i, j)` with
`i ∈ [1, n-1]`, `j ∈ [1, n]`, excluding `i = j` under `ForbidPiDotEi` and
always excluding `(1, n)`; EE exactly all pairs `i < j` in `[1, n]`. -/
theorem c4_catalog_characterization (cfg : GenConfig) (hn : 1 ≤ cfg.n_legs) :
    ((generate_valid_factors cfg).1.Pairwise (fun f g => factorLeB f g = true) ∧
      (generate_valid_factors cfg).1.Nodup ∧
      ∀ f, f ∈ (generate_valid_factors cfg).1 ↔
        ∃ i j, f = ScalarFactor.pp i j ∧ 1 ≤ i ∧ i < j ∧ j ≤ cfg.n_legs ∧
          i ≠ cfg.n_legs ∧ j ≠ cfg.n_legs) ∧
    ((generate_valid_factors cfg).2.1.Pairwise
        (fun f g => factorLeB f g = true) ∧
      (generate_valid_factors cfg).2.1.Nodup ∧
      ∀ f, f ∈ (generate_valid_factors cfg).2.1 ↔
        ∃ i j, f = ScalarFactor.pe i j ∧ 1 ≤ i ∧ i ≤ cfg.n_legs - 1 ∧
          1 ≤ j ∧ j ≤ cfg.n_legs ∧
          (cfg.transversality = Transversality.ForbidPiDotEi → i ≠ j) ∧
          ¬(i = 1 ∧ j = cfg.n_legs)) ∧
    ((generate_valid_factors cfg).2.2.Pairwise
        (fun f g => factorLeB f g = true) ∧
      (generate_valid_factors cfg).2.2.Nodup ∧
      ∀ f, f ∈ (generate_valid_factors cfg).2.2 ↔
        ∃ i j, f = ScalarFactor.ee i j ∧ 1 ≤ i ∧ i < j ∧ j ≤ cfg.n_legs) :=
  ⟨⟨sortFactors_pairwise _, ppList_nodup cfg, fun _ => mem_ppList⟩,
    ⟨sortFactors_pairwise _, peList_nodup cfg, fun _ => mem_peList⟩,
    ⟨sortFactors_pairwise _, eeList_nodup cfg, fun _ => mem_eeList⟩⟩

/-- C4 witness. -/
theorem c4_catalog_characterization_witness :
    ScalarFactor.pp 1 2 ∈
      (generate_valid_factors ⟨4, .ForbidPiDotEi, .OnePerLeg⟩).1 ∧
    ScalarFactor.pe 1 4 ∉
      (generate_valid_factors ⟨4, .ForbidPiDotEi, .OnePerLeg⟩).2.1 := by
  have h := c4_catalog_characterization ⟨4, .ForbidPiDotEi, .OnePerLeg⟩
    (by decide)
  constructor
  · exact (h.1.2.2 (ScalarFactor.pp 1 2)).mpr
      ⟨1, 2, rfl, by decide, by decide, by decide, by decide, by decide⟩
  · intro hmem
    obtain ⟨i, j, hf, -, -, -, -, -, hnot⟩ := (h.2.1.2.2 _).mp hmem
    simp only [ScalarFactor.pe, ScalarFactor.mk.injEq, true_and] at hf
    exact hnot ⟨hf.1.symm, hf.2.symm⟩

/-! ### The collect-then-sort refinement (C3) -/

/-- Instrumented variant of `dfs_emit` that appends each accepted
canonicalized leaf to a plain list instead of inserting into the sorted set;
`(dfs_collect fuel s idx []).length` is the number of leaf acceptances. -/
def dfs_collect (fuel : Nat) (s : DfsState) (idx_start : Nat)
    (out : List TensorStructure) : List TensorStructure :=
  match fuel with
  | 0 => out
  | fuel + 1 =>
    let deg_so_far := s.cur.factors.length
    let ee_so_far := s.cur.ee_contractions
    if deg_so_far > s.target_deg ∨ ee_so_far > s.ee_needed then out
    else if s.enforce_one_pol &&
        ((legRange s.nlegs).any (fun r => decide (s.pol_count r > 1)) ||
          decide ((s.target_deg - deg_so_far) * 2 <
            ((legRange s.nlegs).filter fun r => s.pol_count r == 0).length) ||
          decide (2 * ee_so_far + s.pe_so_far > s.nlegs)) then out
    else if deg_so_far = s.target_deg then
      if ee_so_far = s.ee_needed then
        if !s.enforce_one_pol then out ++ [s.cur.canonicalize]
        else if 2 * ee_so_far + s.pe_so_far = s.nlegs ∧
            (legRange s.nlegs).all (fun r => s.pol_count r == 1) then
          out ++ [s.cur.canonicalize]
        else out
      else out
    else
      (List.range' idx_start (s.catalog.length - idx_start)).foldl
        (fun acc i =>
          dfs_collect fuel (pushFactor s (s.catalog.getD i (ScalarFactor.pp 0 0))) i acc)
        out

/-- The accepted leaves of the whole search, in discovery order. -/
def collect_tensor_structures (cfg : GenConfig)
    (target_degree ee_contractions : Nat) : List TensorStructure :=
  if target_degree = 0 then []
  else if ee_contractions > target_degree then []
  else
    let pp := (generate_valid_factors cfg).1
    let pe := (generate_valid_factors cfg).2.1
    let ee := (generate_valid_factors cfg).2.2
    let catalog := pp ++ pe ++ ee
    let s : DfsState :=
      { target_deg := target_degree
        ee_needed := ee_contractions
        nlegs := cfg.n_legs
        enforce_one_pol := cfg.pol_pattern = PolarizationPattern.OnePerLeg
        catalog := catalog
        cur := TensorStructure.new
        pe_so_far := 0
        pol_count := fun _ => 0 }
    dfs_collect (target_degree + 1) s 0 []

/-- `t ≤ u` as a Bool, from the `TensorStructure` comparator. -/
def tsLeB (t u : TensorStructure) : Bool :=
  match t.cmp u with
  | .gt => false
  | _ => true

/-- Ordered insertion of a structure (for the sort-once implementation). -/
def insOrderedTS (t : TensorStructure) :
    List TensorStructure → List TensorStructure
  | [] => [t]
  | u :: us => if tsLeB t u then t :: u :: us else u :: insOrderedTS t us

/-- Sorting a list of structures by the `TensorStructure` order. -/
def sortTSList : List TensorStructure → List TensorStructure
  | [] => []
  | t :: ts => insOrderedTS t (sortTSList ts)

/-- One deduplication pass over a sorted list: drop an element comparing
equal to its predecessor. -/
def dedupTS : List TensorStructure → List TensorStructure
  | [] => []
  | [t] => [t]
  | t :: u :: rest =>
    if t.cmp u = .eq then dedupTS (t :: rest) else t :: dedupTS (u :: rest)

theorem foldl_acc_general {g : List TensorStructure → Nat → List TensorStructure}
    (hg : ∀ o i, g o i = o ++ g [] i) :
    ∀ (is : List Nat) (o : List TensorStructure),
      List.foldl g o is = o ++ List.foldl g [] is := by
  intro is
  induction is with
  | nil => intro o; simp
  | cons i is ih =>
    intro o
    rw [List.foldl_cons, List.foldl_cons, ih (g o i), hg o i, ih (g [] i),
      List.append_assoc]

theorem mem_foldl_general {g : List TensorStructure → Nat → List TensorStructure}
    (hg : ∀ o i, g o i = o ++ g [] i) :
    ∀ (is : List Nat) (t : TensorStructure),
      t ∈ List.foldl g [] is ↔ ∃ i ∈ is, t ∈ g [] i := by
  intro is
  induction is with
  | nil => intro t; simp
  | cons i is ih =>
    intro t
    rw [List.foldl_cons, foldl_acc_general hg is (g [] i), List.mem_append, ih]
    simp

/-- `dfs_collect` only appends to its accumulator. -/
theorem dfs_collect_acc :
    ∀ (fuel : Nat) (s : DfsState) (idx : Nat) (out : List TensorStructure),
      dfs_collect fuel s idx out = out ++ dfs_collect fuel s idx [] := by
  intro fuel
  induction fuel with
  | zero => intro s idx out; simp [dfs_collect]
  | succ fuel ih =>
    intro s idx out
    rw [dfs_collect, dfs_collect]
    split_ifs with h1 h2 h3 h4 h5 h6
    · simp
    · simp
    · simp
    · simp
    · simp
    · simp
    · exact foldl_acc_general
        (fun o i => ih (pushFactor s (s.catalog.getD i (ScalarFactor.pp 0 0))) i o)
        _ out

/-- The sorted-set search is the fold of ordered insertion over the collected
leaves. -/
theorem dfs_emit_eq_foldl_insert :
    ∀ (fuel : Nat) (s : DfsState) (idx : Nat) (out : List TensorStructure),
      dfs_emit fuel s idx out =
        (dfs_collect fuel s idx []).foldl (fun o t => insertTS t o) out := by
  intro fuel
  induction fuel with
  | zero => intro s idx out; simp [dfs_emit, dfs_collect]
  | succ fuel ih =>
    intro s idx out
    rw [dfs_emit, dfs_collect]
    split_ifs with h1 h2 h3 h4 h5 h6
    · simp
    · simp
    · simp
    · simp
    · simp
    · simp
    · -- both sides are folds over the same index list
      generalize List.range' idx (s.catalog.length - idx) = is
      induction is generalizing out with
      | nil => simp
      | cons i is ihl =>
        rw [List.foldl_cons, List.foldl_cons, ihl, ih,
          foldl_acc_general
            (g := fun o j =>
              dfs_collect fuel (pushFactor s (s.catalog.getD j (ScalarFactor.pp 0 0))) j o)
            (fun o j => dfs_collect_acc fuel _ j o) is
            (dfs_collect fuel
              (pushFactor s (s.catalog.getD i (ScalarFactor.pp 0 0))) i []),
          List.foldl_append]

theorem getD_mem_drop :
    ∀ (l : List ScalarFactor) (idx i : Nat) (d : ScalarFactor),
      idx ≤ i → i < l.length → l.getD i d ∈ l.drop idx := by
  intro l
  induction l with
  | nil => intro idx i d _ h; simp at h
  | cons x xs ih =>
    intro idx i d hle hlen
    cases idx with
    | zero =>
      cases i with
      | zero => simp
      | succ i =>
        rw [List.getD_cons_succ, List.drop_zero]
        exact List.mem_cons_of_mem x
          (by simpa using ih 0 i d (Nat.zero_le i) (by simpa using hlen))
    | succ idx =>
      obtain ⟨i, rfl⟩ : ∃ i', i = i' + 1 := ⟨i - 1, by omega⟩
      rw [List.getD_cons_succ, List.drop_succ_cons]
      exact ih idx i d (by omega) (by simpa using hlen)

theorem getD_mem_take :
    ∀ (l : List ScalarFactor) (j i : Nat) (d : ScalarFactor),
      i < j → i < l.length → l.getD i d ∈ l.take j := by
  intro l
  induction l with
  | nil => intro j i d _ h; simp at h
  | cons x xs ih =>
    intro j i d hij hlen
    obtain ⟨j, rfl⟩ : ∃ j', j = j' + 1 := ⟨j - 1, by omega⟩
    rw [List.take_succ_cons]
    cases i with
    | zero => simp
    | succ i =>
      rw [List.getD_cons_succ]
      exact List.mem_cons_of_mem x (ih j i d (by omega) (by simpa using hlen))

theorem getD_not_mem_drop_of_nodup {l : List ScalarFactor} (hl : l.Nodup)
    {i j : Nat} (hij : i < j) (hi : i < l.length) (d : ScalarFactor) :
    l.getD i d ∉ l.drop j := by
  intro hmem
  set x := l.getD i d with hx
  have htake : x ∈ l.take j := getD_mem_take l j i d hij hi
  have h1 : 0 < (l.take j).count x := List.count_pos_iff.mpr htake
  have h2 : 0 < (l.drop j).count x := List.count_pos_iff.mpr hmem
  have h3 : l.count x ≤ 1 := List.nodup_iff_count_le_one.mp hl _
  rw [show l.count x = (l.take j).count x + (l.drop j).count x from by
    rw [← List.count_append, List.take_append_drop]] at h3
  omega

theorem drop_subset_drop {l : List ScalarFactor} {idx i : Nat} (h : idx ≤ i) :
    l.drop i ⊆ l.drop idx := by
  intro x hx
  have he : l.drop i = (l.drop idx).drop (i - idx) := by
    rw [List.drop_drop]
    congr 1
    omega
  rw [he] at hx
  exact List.drop_subset _ _ hx

theorem count_append_singleton (l : List ScalarFactor) (f g : ScalarFactor) :
    (l ++ [f]).count g = l.count g + if f = g then 1 else 0 := by
  rw [List.count_append, List.count_singleton]
  simp [beq_iff_eq]

/-- Count invariant of the collected leaves: every accepted leaf extends the
current partial structure, and only by factors drawn from the catalog at
positions `≥ idx`. -/
theorem dfs_collect_count (fuel : Nat) :
    ∀ (s : DfsState) (idx : Nat) (t : TensorStructure),
      t ∈ dfs_collect fuel s idx [] →
      ∀ g : ScalarFactor,
        s.cur.factors.count g ≤ t.factors.count g ∧
          (g ∉ s.catalog.drop idx →
            t.factors.count g = s.cur.factors.count g) := by
  induction fuel with
  | zero => intro s idx t ht; simp [dfs_collect] at ht
  | succ fuel ih =>
    intro s idx t ht g
    rw [dfs_collect] at ht
    split_ifs at ht with h1 h2 h3 h4 h5 h6
    · simp at ht
    · simp at ht
    · simp only [List.nil_append, List.mem_singleton] at ht
      subst ht
      have hc : (s.cur.canonicalize).factors.count g = s.cur.factors.count g :=
        (sortFactors_perm _).count_eq g
      exact ⟨le_of_eq hc.symm, fun _ => hc⟩
    · simp only [List.nil_append, List.mem_singleton] at ht
      subst ht
      have hc : (s.cur.canonicalize).factors.count g = s.cur.factors.count g :=
        (sortFactors_perm _).count_eq g
      exact ⟨le_of_eq hc.symm, fun _ => hc⟩
    · simp at ht
    · simp at ht
    · rw [mem_foldl_general
        (g := fun o j =>
          dfs_collect fuel (pushFactor s (s.catalog.getD j (ScalarFactor.pp 0 0))) j o)
        (fun o j => dfs_collect_acc fuel _ j o)] at ht
      obtain ⟨i, hi, hti⟩ := ht
      rw [List.mem_range'_1] at hi
      have hlen : i < s.catalog.length := by omega
      have hchild :=
        ih (pushFactor s (s.catalog.getD i (ScalarFactor.pp 0 0))) i t hti g
      have hcur : (pushFactor s (s.catalog.getD i (ScalarFactor.pp 0 0))).cur.factors =
          s.cur.factors ++ [s.catalog.getD i (ScalarFactor.pp 0 0)] := rfl
      rw [hcur, count_append_singleton] at hchild
      constructor
      · exact le_trans (by omega) hchild.1
      · intro hg
        have hgi : g ∉ s.catalog.drop i := fun hmem =>
          hg (drop_subset_drop (by omega) hmem)
        have hfg : s.catalog.getD i (ScalarFactor.pp 0 0) ≠ g := by
          intro h
          exact hg (h ▸ getD_mem_drop s.catalog idx i (ScalarFactor.pp 0 0) (by omega) hlen)
        have := hchild.2 hgi
        rw [this, if_neg hfg, Nat.add_zero]

theorem pairwise_foldl_blocks
    {g : List TensorStructure → Nat → List TensorStructure}
    (hg : ∀ o i, g o i = o ++ g [] i)
    {P : TensorStructure → TensorStructure → Prop} {R : Nat → Nat → Prop} :
    ∀ is : List Nat, is.Pairwise R →
      (∀ i ∈ is, (g [] i).Pairwise P) →
      (∀ i j, R i j → ∀ t ∈ g [] i, ∀ u ∈ g [] j, P t u) →
      (List.foldl g [] is).Pairwise P := by
  intro is
  induction is with
  | nil => intro _ _ _; simp
  | cons i is ih =>
    intro hR hblocks hcross
    rw [List.foldl_cons, foldl_acc_general hg is (g [] i), List.pairwise_append]
    rw [List.pairwise_cons] at hR
    refine ⟨hblocks i (by simp), ih hR.2
      (fun j hj => hblocks j (by simp [hj])) hcross, ?_⟩
    intro a ha b hb
    rw [mem_foldl_general hg] at hb
    obtain ⟨j, hj, hbj⟩ := hb
    exact hcross i j (hR.1 j hj) a ha b hbj

/-- No two collected leaves share the same factor multiset: each leaf is
reached by a unique non-decreasing index selection, and distinct selections
differ on some catalog factor's multiplicity. -/
theorem dfs_collect_pairwise_ne (fuel : Nat) :
    ∀ (s : DfsState) (idx : Nat), s.catalog.Nodup →
      (dfs_collect fuel s idx []).Pairwise
        (fun t u => t.factors ≠ u.factors) := by
  induction fuel with
  | zero => intro s idx _; simp [dfs_collect]
  | succ fuel ih =>
    intro s idx hcat
    rw [dfs_collect]
    split_ifs with h1 h2 h3 h4 h5 h6
    · simp
    · simp
    · simp
    · simp
    · simp
    · simp
    · refine pairwise_foldl_blocks
        (g := fun o j =>
          dfs_collect fuel (pushFactor s (s.catalog.getD j (ScalarFactor.pp 0 0))) j o)
        (R := fun i j => i < j ∧ j < s.catalog.length)
        (fun o j => dfs_collect_acc fuel _ j o)
        (List.range' idx (s.catalog.length - idx))
        ((List.pairwise_lt_range' idx _).imp_of_mem ?_) ?_ ?_
      · intro a b ha hb hab
        rw [List.mem_range'_1] at ha hb
        exact ⟨hab, by omega⟩
      · intro i _
        exact ih (pushFactor s (s.catalog.getD i (ScalarFactor.pp 0 0))) i hcat
      · rintro i j ⟨hij, hjlen⟩ t ht u hu
        intro hfeq
        have hilen : i < s.catalog.length := by omega
        have hti := dfs_collect_count fuel
          (pushFactor s (s.catalog.getD i (ScalarFactor.pp 0 0))) i t ht
          (s.catalog.getD i (ScalarFactor.pp 0 0))
        have htu := dfs_collect_count fuel
          (pushFactor s (s.catalog.getD j (ScalarFactor.pp 0 0))) j u hu
          (s.catalog.getD i (ScalarFactor.pp 0 0))
        rw [show (pushFactor s (s.catalog.getD i (ScalarFactor.pp 0 0))).cur.factors =
            s.cur.factors ++ [s.catalog.getD i (ScalarFactor.pp 0 0)] from rfl,
          count_append_singleton, if_pos rfl] at hti
        rw [show (pushFactor s (s.catalog.getD j (ScalarFactor.pp 0 0))).cur.factors =
            s.cur.factors ++ [s.catalog.getD j (ScalarFactor.pp 0 0)] from rfl,
          count_append_singleton] at htu
        have hne : s.catalog.getD j (ScalarFactor.pp 0 0) ≠
            s.catalog.getD i (ScalarFactor.pp 0 0) := by
          rw [List.getD_eq_getElem _ _ hjlen, List.getD_eq_getElem _ _ hilen]
          intro h
          exact absurd ((hcat.getElem_inj_iff).mp h) (by omega)
        have hnd : s.catalog.getD i (ScalarFactor.pp 0 0) ∉ s.catalog.drop j :=
          getD_not_mem_drop_of_nodup hcat hij hilen _
        have hueq := htu.2 hnd
        rw [if_neg hne, Nat.add_zero] at hueq
        have hti1 := hti.1
        rw [hfeq] at hti1
        omega

theorem insertTS_perm_of_no_collision {t : TensorStructure}
    {out : List TensorStructure}
    (h : ∀ u ∈ out, t.factors ≠ u.factors) :
    List.Perm (insertTS t out) (t :: out) := by
  induction out with
  | nil => simp [insertTS]
  | cons u us ih =>
    unfold insertTS
    cases hc : t.cmp u with
    | lt => exact List.Perm.refl _
    | eq => exact absurd (tsCmp_eq_eq.mp hc) (h u (by simp))
    | gt =>
      refine (List.Perm.cons u (ih fun v hv => h v (by simp [hv]))).trans ?_
      exact List.Perm.swap t u us

theorem foldl_insertTS_perm :
    ∀ (L out : List TensorStructure),
      L.Pairwise (fun t u => t.factors ≠ u.factors) →
      (∀ u ∈ out, ∀ v ∈ L, u.factors ≠ v.factors) →
      List.Perm (L.foldl (fun o t => insertTS t o) out) (out ++ L) := by
  intro L
  induction L with
  | nil => intro out _ _; simp
  | cons t L ih =>
    intro out hpair hout
    rw [List.pairwise_cons] at hpair
    rw [List.foldl_cons]
    have hno : ∀ u ∈ out, t.factors ≠ u.factors := fun u hu =>
      fun he => hout u hu t (by simp) he.symm
    have hstep : List.Perm (insertTS t out) (t :: out) :=
      insertTS_perm_of_no_collision hno
    have hrec : List.Perm
        (L.foldl (fun o t => insertTS t o) (insertTS t out))
        (insertTS t out ++ L) := by
      refine ih (insertTS t out) hpair.2 ?_
      intro u hu v hv
      rcases mem_insertTS hu with rfl | hu2
      · exact hpair.1 v hv
      · exact hout u hu2 v (by simp [hv])
    refine hrec.trans ?_
    refine (hstep.append_right L).trans ?_
    exact (@List.perm_middle _ t out L).symm

/-! ### Sorting and dedup of structure lists -/

theorem tsLeB_iff {t u : TensorStructure} :
    tsLeB t u = true ↔ t.cmp u ≠ .gt := by
  unfold tsLeB; cases h : t.cmp u <;> simp_all

theorem tsLeB_total (t u : TensorStructure) :
    tsLeB t u = true ∨ tsLeB u t = true := by
  rw [tsLeB_iff, tsLeB_iff]
  cases h : t.cmp u
  · simp
  · simp
  · right; rw [tsCmp_eq_gt] at h; simp [h]

theorem listCmp_le_trans {a b c : List ScalarFactor} :
    listCmp a b ≠ .gt → listCmp b c ≠ .gt → listCmp a c ≠ .gt := by
  intro h1 h2
  cases hab : listCmp a b with
  | lt =>
    cases hbc : listCmp b c with
    | lt => simp [listCmp_lt_trans hab hbc]
    | eq => rw [listCmp_eq_eq] at hbc; subst hbc; simp [hab]
    | gt => exact absurd hbc h2
  | eq => rw [listCmp_eq_eq] at hab; subst hab; exact h2
  | gt => exact absurd hab h1

theorem tsLeB_trans {t u v : TensorStructure} :
    tsLeB t u = true → tsLeB u v = true → tsLeB t v = true := by
  rw [tsLeB_iff, tsLeB_iff, tsLeB_iff]
  exact listCmp_le_trans

theorem insOrderedTS_perm (t : TensorStructure) (l : List TensorStructure) :
    List.Perm (insOrderedTS t l) (t :: l) := by
  induction l with
  | nil => exact List.Perm.refl _
  | cons u us ih =>
    unfold insOrderedTS
    split_ifs
    · exact List.Perm.refl _
    · exact (List.Perm.cons u ih).trans (List.Perm.swap t u us)

theorem sortTSList_perm (l : List TensorStructure) :
    List.Perm (sortTSList l) l := by
  induction l with
  | nil => exact List.Perm.refl _
  | cons t ts ih =>
    exact (insOrderedTS_perm t (sortTSList ts)).trans (List.Perm.cons t ih)

theorem mem_insOrderedTS {x t : TensorStructure} {l : List TensorStructure} :
    x ∈ insOrderedTS t l ↔ x = t ∨ x ∈ l := by
  rw [(insOrderedTS_perm t l).mem_iff, List.mem_cons]

theorem insOrderedTS_pairwise {t : TensorStructure} {l : List TensorStructure}
    (h : l.Pairwise (fun a b => tsLeB a b = true)) :
    (insOrderedTS t l).Pairwise (fun a b => tsLeB a b = true) := by
  induction l with
  | nil => simp [insOrderedTS]
  | cons u us ih =>
    rw [List.pairwise_cons] at h
    unfold insOrderedTS
    split_ifs with hle
    · refine List.Pairwise.cons ?_ (List.Pairwise.cons h.1 h.2)
      intro x hx
      rcases List.mem_cons.mp hx with rfl | hx2
      · exact hle
      · exact tsLeB_trans hle (h.1 x hx2)
    · have hut : tsLeB u t = true := by
        rcases tsLeB_total t u with h' | h'
        · exact absurd h' (by simp_all)
        · exact h'
      refine List.Pairwise.cons ?_ (ih h.2)
      intro x hx
      rcases mem_insOrderedTS.mp hx with rfl | hx2
      · exact hut
      · exact h.1 x hx2

theorem sortTSList_pairwise (l : List TensorStructure) :
    (sortTSList l).Pairwise (fun a b => tsLeB a b = true) := by
  induction l with
  | nil => simp [sortTSList]
  | cons t ts ih => exact insOrderedTS_pairwise ih

theorem tsLt_of_le_of_ne {t u : TensorStructure} (hle : tsLeB t u = true)
    (hne : t.factors ≠ u.factors) : t.cmp u = .lt := by
  rw [tsLeB_iff] at hle
  cases h : t.cmp u with
  | lt => rfl
  | eq => exact absurd (tsCmp_eq_eq.mp h) hne
  | gt => exact absurd h hle

theorem dedupTS_eq_self :
    ∀ l : List TensorStructure,
      l.Chain' (fun a b => a.cmp b ≠ .eq) → dedupTS l = l
  | [] => fun _ => by rw [dedupTS]
  | [t] => fun _ => by rw [dedupTS]
  | t :: u :: rest => fun h => by
    rw [List.chain'_cons] at h
    rw [dedupTS, if_neg (by simpa using h.1)]
    rw [dedupTS_eq_self (u :: rest) h.2]

/-- Two strictly sorted structure lists that are permutations of one another
are equal. -/
theorem eq_of_perm_of_pairwise_lt {l₁ l₂ : List TensorStructure}
    (hp : List.Perm l₁ l₂)
    (h₁ : l₁.Pairwise (fun a b => a.cmp b = .lt))
    (h₂ : l₂.Pairwise (fun a b => a.cmp b = .lt)) : l₁ = l₂ := by
  haveI : IsAntisymm TensorStructure (fun a b => a.cmp b = .lt) := by
    constructor
    intro a b hab hba
    have h := tsCmp_lt_trans hab hba
    rw [show a.cmp a = .eq from tsCmp_eq_eq.mpr rfl] at h
    cases h
  exact List.eq_of_perm_of_sorted hp h₁ h₂

theorem catalog_nodup (cfg : GenConfig) :
    ((generate_valid_factors cfg).1 ++ (generate_valid_factors cfg).2.1 ++
      (generate_valid_factors cfg).2.2).Nodup := by
  refine List.Nodup.append
    (List.Nodup.append (ppList_nodup cfg) (peList_nodup cfg) ?_)
    (eeList_nodup cfg) ?_
  · rw [List.disjoint_left]
    intro f hf hf'
    obtain ⟨i, j, rfl, -⟩ := mem_ppList.mp hf
    obtain ⟨i', j', he, -⟩ := mem_peList.mp hf'
    simp [ScalarFactor.pp, ScalarFactor.pe] at he
  · rw [List.disjoint_left]
    intro f hf hf'
    obtain ⟨i, j, rfl, -⟩ := mem_eeList.mp hf'
    rw [List.mem_append] at hf
    rcases hf with hf | hf
    · obtain ⟨i', j', he, -⟩ := mem_ppList.mp hf
      simp [ScalarFactor.pp, ScalarFactor.ee] at he
    · obtain ⟨i', j', he, -⟩ := mem_peList.mp hf
      simp [ScalarFactor.pe, ScalarFactor.ee] at he

/-- The three C3 facts at the level of the search itself. -/
theorem dfs_level_refinement (fuel : Nat) (s : DfsState)
    (hcat : s.catalog.Nodup) :
    (dfs_collect fuel s 0 []).Pairwise (fun t u => t.factors ≠ u.factors) ∧
      (dfs_emit fuel s 0 []).length = (dfs_collect fuel s 0 []).length ∧
      dfs_emit fuel s 0 [] = dedupTS (sortTSList (dfs_collect fuel s 0 [])) := by
  have hpair := dfs_collect_pairwise_ne fuel s 0 hcat
  have hfold := dfs_emit_eq_foldl_insert fuel s 0 []
  have hperm : List.Perm
      ((dfs_collect fuel s 0 []).foldl (fun o t => insertTS t o) [])
      (dfs_collect fuel s 0 []) := by
    simpa using foldl_insertTS_perm (dfs_collect fuel s 0 []) [] hpair (by simp)
  have hsortperm := sortTSList_perm (dfs_collect fuel s 0 [])
  have hsymm : ∀ {x y : TensorStructure},
      x.factors ≠ y.factors → y.factors ≠ x.factors :=
    fun h e => h e.symm
  have hpairsorted : (sortTSList (dfs_collect fuel s 0 [])).Pairwise
      (fun t u => t.factors ≠ u.factors) :=
    (List.Perm.pairwise_iff hsymm hsortperm).mpr hpair
  have hlt2 : (sortTSList (dfs_collect fuel s 0 [])).Pairwise
      (fun a b => a.cmp b = .lt) :=
    ((sortTSList_pairwise _).and hpairsorted).imp
      (fun h => tsLt_of_le_of_ne h.1 h.2)
  have hdedup : dedupTS (sortTSList (dfs_collect fuel s 0 [])) =
      sortTSList (dfs_collect fuel s 0 []) :=
    dedupTS_eq_self _ ((hlt2.imp (fun h => by rw [h]; simp)).chain')
  have hlt1 : ((dfs_collect fuel s 0 []).foldl
      (fun o t => insertTS t o) []).Pairwise (fun a b => a.cmp b = .lt) :=
    foldl_preserve (fun o t ho => insertTS_pairwise ho) _ [] List.Pairwise.nil
  refine ⟨hpair, ?_, ?_⟩
  · rw [hfold]
    exact hperm.length_eq
  · rw [hfold, hdedup]
    exact eq_of_perm_of_pairwise_lt (hperm.trans hsortperm.symm) hlt1 hlt2

/-- C3: no two distinct selection paths accept the same canonical structure —
the collected acceptances are pairwise distinct, the sorted-set output has
exactly one element per acceptance, and inserting each accepted leaf into the
sorted dedup set is behaviorally identical to collecting all accepted leaves
and then sorting once and deduplicating once. -/
theorem c3_insert_equals_collect_sort_dedup (cfg : GenConfig) (D E : Nat) :
    (collect_tensor_structures cfg D E).Pairwise
        (fun t u => t.factors ≠ u.factors) ∧
      (generate_tensor_structures cfg D E).length =
        (collect_tensor_structures cfg D E).length ∧
      generate_tensor_structures cfg D E =
        dedupTS (sortTSList (collect_tensor_structures cfg D E)) := by
  unfold generate_tensor_structures collect_tensor_structures
  split_ifs with h1 h2
  · exact ⟨List.Pairwise.nil, rfl, by simp [sortTSList, dedupTS]⟩
  · exact ⟨List.Pairwise.nil, rfl, by simp [sortTSList, dedupTS]⟩
  · exact dfs_level_refinement (D + 1) _ (catalog_nodup cfg)
